import Mathlib

/-!
Verification of the breeze-code-ontology-generator import pipeline.

The development shallowly embeds the core of `tree-to-graph.js` (the
`importRepo` pipeline: record normalization, node upsert, edge upsert,
degree recount, gds community-detection orchestration, and the
try/catch/finally control flow around it) and of `index.js` (the
recursive `convertNeo4jValue` helper).  The graph store is modelled as a
list of property nodes keyed by `path` plus a list of directed
`IMPORTS` edges keyed by the ordered pair of endpoint paths, matching
the Cypher `MERGE` semantics under the uniqueness constraint on
`File.path`.
-/

set_option maxRecDepth 4096

namespace Breeze

/-- Input record handed to `importRepo` (tree-to-graph.js): a parsed
`{path, importFiles, externalImports, name, loc, description}` JSON object.
Absent JSON properties are `none`; the `id` property is written by the
normalization step (lines 40-44). -/
structure FileRecord where
  path : String
  importFiles : Option (List String) := none
  externalImports : Option (List String) := none
  name : Option String := none
  loc : Option Nat := none
  description : Option String := none
  id : Option String := none
deriving Repr, DecidableEq, Inhabited

/-- Persisted `File` node.  Every property other than the `path` identity may
be absent (`none`), exactly as a Neo4j node may lack a property. -/
structure GraphNode where
  path : String
  projectUuid : Option String := none
  externalImports : Option (List String) := none
  name : Option String := none
  loc : Option Nat := none
  description : Option String := none
  id : Option String := none
  importCount : Option Nat := none
  importedByCount : Option Nat := none
  clusterId : Option Nat := none
deriving Repr, DecidableEq, Inhabited

/-- Persisted graph state: `File` nodes plus directed `IMPORTS` edges, an
edge being the ordered pair (from.path, to.path).  Under the uniqueness
constraint of `ensureConstraint`, node paths are unique and `MERGE` never
creates a second edge for the same ordered pair. -/
structure Graph where
  nodes : List GraphNode := []
  edges : List (String × String) := []
deriving Repr, DecidableEq, Inhabited

/-- Paths of all nodes of a graph, in store order. -/
def nodePaths (g : Graph) : List String :=
  g.nodes.map (fun n => n.path)

/-- Property assignment of the node-upsert statement, tree-to-graph.js lines
56-62: `SET f.externalImports = file.externalImports, f.projectUuid =
$projectUuid, f.name = file.name, f.loc = file.loc, f.description =
file.description, f.id = file.id`.  Setting a property to an absent record
field removes it (`SET x = null` semantics), hence the plain field copies. -/
def setNodeAttrs (projectUuid : String) (f : FileRecord) (n : GraphNode) : GraphNode :=
  { n with
    externalImports := f.externalImports
    projectUuid := some projectUuid
    name := f.name
    loc := f.loc
    description := f.description
    id := f.id }

/-- One `UNWIND` iteration of the node-upsert statement (lines 52-66):
`MERGE (f:File {path: file.path})` followed by the unconditional `SET` of
`setNodeAttrs`.  `MERGE` matches every node carrying the path (exactly one
under the constraint) and otherwise creates a fresh node with only the
merge key set, to which the `SET` then applies. -/
def upsertOneNode (projectUuid : String) (g : Graph) (f : FileRecord) : Graph :=
  if g.nodes.any (fun n => n.path == f.path) then
    { g with nodes := g.nodes.map (fun n =>
        if n.path == f.path then setNodeAttrs projectUuid f n else n) }
  else
    { g with nodes := g.nodes ++ [setNodeAttrs projectUuid f { path := f.path }] }

/-- Step 1 of `importRepo` (lines 52-66): the batched `UNWIND $files`
node-merge statement, processing the records in order. -/
def upsertNodes (g : Graph) (files : List FileRecord) (projectUuid : String) : Graph :=
  files.foldl (upsertOneNode projectUuid) g

/-- Flattening of the records into edge pairs, tree-to-graph.js lines 69-75:
records with an absent or empty `importFiles` are skipped, every other
record contributes `{from: file.path, to: imp}` for each import in order. -/
def relPairs (files : List FileRecord) : List (String × String) :=
  files.foldl (fun acc file =>
    match file.importFiles with
    | none => acc
    | some imps => acc ++ imps.map (fun imp => (file.path, imp))) []

/-- Endpoint merge of the edge-upsert statement (lines 82-87):
`MERGE (x:File {path: p}) ON CREATE SET x.projectUuid = $projectUuid
ON MATCH SET x.projectUuid = coalesce(x.projectUuid, $projectUuid)`. -/
def mergeEndpoint (projectUuid : String) (p : String) (g : Graph) : Graph :=
  if g.nodes.any (fun n => n.path == p) then
    { g with nodes := g.nodes.map (fun n =>
        if n.path == p then
          { n with projectUuid := some (n.projectUuid.getD projectUuid) }
        else n) }
  else
    { g with nodes := g.nodes ++ [{ path := p, projectUuid := some projectUuid }] }

/-- Relationship merge of line 88: `MERGE (a)-[:IMPORTS]->(b)` creates the
edge only when no `IMPORTS` edge for the same ordered endpoint pair exists. -/
def mergeEdge (a b : String) (g : Graph) : Graph :=
  if (a, b) ∈ g.edges then g
  else { g with edges := g.edges ++ [(a, b)] }

/-- One `UNWIND` iteration of the edge-upsert statement (lines 81-88): merge
the `from` endpoint, then the `to` endpoint, then the edge. -/
def upsertEdgePair (projectUuid : String) (g : Graph) (p : String × String) : Graph :=
  mergeEdge p.1 p.2 (mergeEndpoint projectUuid p.2 (mergeEndpoint projectUuid p.1 g))

/-- Step 2 of `importRepo` (lines 69-93): the batched `UNWIND $pairs`
edge-merge statement over the flattened pairs (the statement is only issued
when there is at least one pair; with zero pairs the fold is the identity,
matching the `if (relPairs.length > 0)` guard). -/
def upsertEdges (g : Graph) (files : List FileRecord) (projectUuid : String) : Graph :=
  (relPairs files).foldl (upsertEdgePair projectUuid) g

/-- Number of outgoing `IMPORTS` edges of the node with path `p`
(`OPTIONAL MATCH (f)-[:IMPORTS]->(out:File) ... COUNT(out)`; the `OPTIONAL
MATCH` row with no match contributes `null`, counted as 0). -/
def outDeg (edges : List (String × String)) (p : String) : Nat :=
  (edges.filter (fun e => e.1 == p)).length

/-- Number of incoming `IMPORTS` edges of the node with path `p`. -/
def inDeg (edges : List (String × String)) (p : String) : Nat :=
  (edges.filter (fun e => e.2 == p)).length

/-- `updateImportCounts` (tree-to-graph.js lines 125-153): reads the list of
all `File` nodes once, then for each of them issues one statement setting
`importCount` to its outgoing and `importedByCount` to its incoming
`IMPORTS` degree.  The per-node statements never change the edge set or the
node list, so the loop is a pointwise update of every node. -/
def updateImportCounts (g : Graph) : Graph :=
  { g with nodes := g.nodes.map (fun n =>
      { n with
        importCount := some (outDeg g.edges n.path)
        importedByCount := some (inDeg g.edges n.path) }) }

/-- An in-memory gds graph projection, addressed by name. -/
structure Projection where
  name : String
  nodePaths : List String
  relEdges : List (String × String)
  undirected : Bool
deriving Repr, DecidableEq, Inhabited

/-- Persistent store state: the graph plus the named in-memory gds
projections, plus whether the uniqueness constraints of `ensureConstraint`
have been declared. -/
structure Store where
  graph : Graph := {}
  projections : List Projection := []
  constraintsEnsured : Bool := false
deriving Repr, DecidableEq, Inhabited

/-- Line 98: `CALL gds.graph.drop('importsGraph', false)`.  The `false`
argument makes the call succeed (as a no-op) when no projection of that
name exists, so the drop is a total operation. -/
def dropImportsGraph (st : Store) : Store :=
  { st with projections := st.projections.filter (fun pr => !(pr.name == "importsGraph")) }

/-- Lines 99-108: `CALL gds.graph.project('importsGraph', 'File',
{IMPORTS: {type: 'IMPORTS', orientation: 'UNDIRECTED'}})` — snapshots every
`File` node and every `IMPORTS` relationship of the store into a new
undirected in-memory projection named `importsGraph`. -/
def projectImportsGraph (st : Store) : Store :=
  { st with projections := st.projections ++
      [{ name := "importsGraph"
         nodePaths := nodePaths st.graph
         relEdges := st.graph.edges
         undirected := true }] }

/-- Lines 109-112: `CALL gds.louvain.write('importsGraph', {writeProperty:
'clusterId'})` — runs Louvain over the named projection and writes each
projected node's community id onto the persisted node's `clusterId`.  The
algorithm itself is the external gds library; its community assignment is
the parameter `comm`.  (If the named projection were missing, gds would
raise; inside `detectCommunities` it always exists.) -/
def louvainWrite (comm : String → Nat) (st : Store) : Store :=
  match st.projections.find? (fun pr => pr.name == "importsGraph") with
  | none => st
  | some pr =>
    { st with graph := { st.graph with nodes := st.graph.nodes.map (fun n =>
        if pr.nodePaths.contains n.path then { n with clusterId := some (comm n.path) }
        else n) } }

/-- The community-detection block of `importRepo` (lines 97-113): one write
transaction that drops any projection named `importsGraph`, builds a fresh
undirected projection of all `File` nodes and `IMPORTS` relationships, and
runs Louvain writing `clusterId` back onto the stored nodes.  Note the
block contains no trailing drop: the projection built here is left in
place when the call returns. -/
def detectCommunities (comm : String → Nat) (st : Store) : Store :=
  louvainWrite comm (projectImportsGraph (dropImportsGraph st))

/-- JS truthiness of an optional string property: `undefined`, `null` and
the empty string are falsy. -/
def jsTruthy : Option String → Bool
  | none => false
  | some s => !(s == "")

/-- Normalization of one record, tree-to-graph.js lines 41-42:
`if(!f.description) f.description = ''` then `f.id = ...` with a freshly
generated id (`Date.now()` plus a random base-36 suffix in the source; the
generated string is the parameter `newId`). -/
def normalizeRecord (newId : String) (f : FileRecord) : FileRecord :=
  let f1 := if jsTruthy f.description then f else { f with description := some "" }
  { f1 with id := some newId }

/-- Heap of JS record objects: a cell per object, a reference being an
index into the heap. -/
def RecHeap := List FileRecord

instance : Inhabited RecHeap := ⟨([] : List FileRecord)⟩

instance : DecidableEq RecHeap := inferInstanceAs (DecidableEq (List FileRecord))

/-- Mutation pass of `files.map(f => ...)` (lines 40-44) over the referenced
record objects: the k-th visited reference has its cell overwritten with
its normalized value; `idGen k` is the fresh id generated for it. -/
def normalizeGo (idGen : Nat → String) (k : Nat) (heap : RecHeap) : List Nat → RecHeap
  | [] => heap
  | r :: rest =>
    normalizeGo idGen (k + 1)
      (heap.set r (normalizeRecord (idGen k) (heap.getD r default))) rest

/-- The normalization step of `importRepo` (lines 40-44):
`files = files.map(f => { if(!f.description) f.description = ''; f.id =
...; return f })`.  The callback mutates each record object in place and
returns the very same object, so the call returns the input references
unchanged (first component: the heap after the mutations; second
component: the returned reference list, which aliases the input). -/
def normalizeFiles (idGen : Nat → String) (heap : RecHeap) (refs : List Nat) :
    RecHeap × List Nat :=
  (normalizeGo idGen 0 heap refs, refs)

/-- Value-level view of the same normalization (lines 40-44): the sequence
of record values the subsequent Cypher statements receive, the k-th record
carrying the k-th generated id. -/
def normalizeList (idGen : Nat → String) : List FileRecord → Nat → List FileRecord
  | [], _ => []
  | f :: rest, k => normalizeRecord (idGen k) f :: normalizeList idGen rest (k + 1)

/-- Store-level behaviour of `importRepo` (tree-to-graph.js lines 38-123) on
the success path: the guard of line 39 returns before any session is
acquired when `files` is null/undefined or empty; otherwise the pipeline
normalizes the records, opens the `ensureConstraint` session and the import
session (two sessions), declares the constraints, merges nodes, merges
edges, recounts degrees and runs the community-detection block.  The second
component is the number of store sessions opened. -/
def importRepoStore (files : Option (List FileRecord)) (projectUuid : String)
    (idGen : Nat → String) (comm : String → Nat) (st : Store) : Store × Nat :=
  match files with
  | none => (st, 0)
  | some fs =>
    if fs.length = 0 then (st, 0)
    else
      let nf := normalizeList idGen fs 0
      let g1 := upsertNodes st.graph nf projectUuid
      let g2 := upsertEdges g1 nf projectUuid
      let g3 := updateImportCounts g2
      let st3 : Store := { st with graph := g3, constraintsEnsured := true }
      (detectCommunities comm st3, 2)

/-- The store steps of the pipeline body that can raise an unrecoverable
store error, in execution order. -/
inductive PipeStep where
  | ensureStep
  | nodeWriteStep
  | edgeWriteStep
  | degreeStep
  | gdsStep
deriving Repr, DecidableEq, Inhabited

/-- Completion of a JS block: normal completion, an exception propagating
out, or a `process.exit(code)` terminating the process. -/
inductive Control where
  | normal
  | thrown (e : PipeStep)
  | exited (code : Nat)
deriving Repr, DecidableEq, Inhabited

/-- One store step of the pipeline body: raises exactly when the modelled
fault designates this step. -/
def stepRun (fault : Option PipeStep) (s : PipeStep) : Except PipeStep Unit :=
  if fault = some s then Except.error s else Except.ok ()

/-- The `try` block of `importRepo` (lines 48-114): `ensureConstraint`, the
node write, the edge write (issued only when there is at least one pair),
the degree loop, and the gds block, each aborting the body on failure. -/
def pipelineBody (files : List FileRecord) (fault : Option PipeStep) :
    Except PipeStep Unit := do
  stepRun fault PipeStep.ensureStep
  stepRun fault PipeStep.nodeWriteStep
  if (relPairs files).length > 0 then stepRun fault PipeStep.edgeWriteStep else pure ()
  stepRun fault PipeStep.degreeStep
  stepRun fault PipeStep.gdsStep

/-- The `catch` block (lines 115-118) logs the error and rethrows it
unmodified, so the completion after try/catch is the body's completion. -/
def tryCatchRethrow (r : Except PipeStep Unit) : Control :=
  match r with
  | Except.ok _ => Control.normal
  | Except.error e => Control.thrown e

/-- JS `finally` semantics: an abrupt completion of the finalizer (an
exception or a `process.exit`) supersedes whatever completion was pending
from the try/catch. -/
def finallyControl (pending finalizer : Control) : Control :=
  match finalizer with
  | Control.normal => pending
  | Control.thrown e => Control.thrown e
  | Control.exited c => Control.exited c

/-- Control flow of `importRepo(files, projectUuid)` (lines 38-123): the
empty-input guard returns normally; otherwise the try/catch body runs and
the `finally` block (lines 119-122) closes the session and then calls
`process.exit(0)`, an abrupt completion that supersedes any pending
rethrown error. -/
def importRepoControl (files : Option (List FileRecord)) (fault : Option PipeStep) :
    Control :=
  match files with
  | none => Control.normal
  | some fs =>
    if fs.length = 0 then Control.normal
    else finallyControl (tryCatchRethrow (pipelineBody fs fault)) (Control.exited 0)

/-- Exit status of the node process given the completion of `importRepo`
(which is invoked at top level, line 156, with no surrounding handler): a
normal completion lets the script end with status 0, an exception escaping
to the top level terminates the process with a non-zero status, and a
`process.exit(c)` exits with `c`. -/
def processExitCode : Control → Nat
  | Control.normal => 0
  | Control.thrown _ => 1
  | Control.exited c => c

mutual
/-- JSON-like value universe of the query-proxy results (index.js): strings,
native numbers, store-native integers (`neo4j.Integer`), booleans, null,
arrays and plain objects. -/
inductive JValue where
  | str (s : String)
  | num (n : Int)
  | neoInt (i : Int)
  | boolv (b : Bool)
  | nullv
  | arr (items : JList)
  | obj (fields : JObj)

/-- List of `JValue`s (array elements). -/
inductive JList where
  | nil
  | cons (hd : JValue) (tl : JList)

/-- Association list of string keys to `JValue`s (object fields). -/
inductive JObj where
  | nil
  | cons (key : String) (val : JValue) (tl : JObj)
end

/-- Ulp exponent of a natural number beyond the double-exact range: the
number of halvings needed to bring `n` below 2^53, i.e. the `u` with
2^(52+u) ≤ n < 2^(53+u); IEEE-754 doubles in that range are exactly the
multiples of 2^u.  The fuel argument (structural) is ample for any 64-bit
store integer. -/
def ulpExp : Nat → Nat → Nat
  | 0, _ => 0
  | fuel + 1, n => if n < 2 ^ 53 then 0 else ulpExp fuel (n / 2) + 1

/-- Rounding of a natural number to the value of the nearest IEEE-754
double (round half to even), computed with exact integer arithmetic:
numbers up to 2^53 are representable and kept; beyond, `n` is rounded to
the nearest multiple of its ulp 2^u, a tie going to the even multiple. -/
def roundNatToDouble (n : Nat) : Nat :=
  if n ≤ 2 ^ 53 then n
  else
    let u := ulpExp 1100 n
    let p := 2 ^ u
    let q := n / p
    let r := n % p
    let half := p / 2
    if r < half then q * p
    else if half < r then (q + 1) * p
    else if q % 2 = 0 then q * p else (q + 1) * p

/-- `Integer.toNumber()` of the neo4j driver, as invoked at index.js line
14: it computes `high * 2^32 + low` in IEEE-754 double arithmetic, where
`high * 2^32` is exact (at most 32 significant bits) and the single
addition rounds the true 64-bit integer to the nearest double, ties to
even.  Rounding is symmetric in sign, so the result is the signed
round-to-nearest-even of the stored integer — exact within ±2^53, lossy
beyond. -/
def toNumberJS (i : Int) : Int :=
  if i < 0 then -((roundNatToDouble i.natAbs : Nat) : Int)
  else ((roundNatToDouble i.natAbs : Nat) : Int)

mutual
/-- `convertNeo4jValue` (index.js lines 11-20): arrays are mapped
recursively (the `Array.isArray` check comes first), a non-null object is
either a `neo4j.Integer` — converted by `toNumber()`, modelled exactly by
`toNumberJS` including its rounding to the nearest double — or a plain
object whose every property is converted recursively; every other value is
returned unchanged. -/
def convertNeo4jValue : JValue → JValue
  | JValue.arr items => JValue.arr (convertJList items)
  | JValue.neoInt i => JValue.num (toNumberJS i)
  | JValue.obj fields => JValue.obj (convertJObj fields)
  | JValue.str s => JValue.str s
  | JValue.num n => JValue.num n
  | JValue.boolv b => JValue.boolv b
  | JValue.nullv => JValue.nullv

/-- Elementwise conversion of an array (`value.map(convertNeo4jValue)`). -/
def convertJList : JList → JList
  | JList.nil => JList.nil
  | JList.cons v tl => JList.cons (convertNeo4jValue v) (convertJList tl)

/-- Keywise conversion of an object (`for (const k in value) obj[k] = ...`). -/
def convertJObj : JObj → JObj
  | JObj.nil => JObj.nil
  | JObj.cons k v tl => JObj.cons k (convertNeo4jValue v) (convertJObj tl)
end

mutual
/-- Structural view of the conversion: every store-native integer anywhere
in the value is replaced by the host-native number `toNumber()` yields for
it, and the shape of strings, arrays and nested objects is preserved. -/
def replaceNeoInts : JValue → JValue
  | JValue.str s => JValue.str s
  | JValue.num n => JValue.num n
  | JValue.neoInt i => JValue.num (toNumberJS i)
  | JValue.boolv b => JValue.boolv b
  | JValue.nullv => JValue.nullv
  | JValue.arr items => JValue.arr (replaceNeoIntsList items)
  | JValue.obj fields => JValue.obj (replaceNeoIntsObj fields)

/-- Structural conversion of array elements. -/
def replaceNeoIntsList : JList → JList
  | JList.nil => JList.nil
  | JList.cons v tl => JList.cons (replaceNeoInts v) (replaceNeoIntsList tl)

/-- Structural conversion of object fields. -/
def replaceNeoIntsObj : JObj → JObj
  | JObj.nil => JObj.nil
  | JObj.cons k v tl => JObj.cons k (replaceNeoInts v) (replaceNeoIntsObj tl)
end

mutual
/-- Modelled from the spec: the claimed conversion, replacing every
store-native integer anywhere in the value by the native number EQUAL to
the integer originally written, preserving shape. -/
def replaceNeoIntsExact : JValue → JValue
  | JValue.str s => JValue.str s
  | JValue.num n => JValue.num n
  | JValue.neoInt i => JValue.num i
  | JValue.boolv b => JValue.boolv b
  | JValue.nullv => JValue.nullv
  | JValue.arr items => JValue.arr (replaceNeoIntsExactList items)
  | JValue.obj fields => JValue.obj (replaceNeoIntsExactObj fields)

/-- Spec-side exact conversion of array elements. -/
def replaceNeoIntsExactList : JList → JList
  | JList.nil => JList.nil
  | JList.cons v tl => JList.cons (replaceNeoIntsExact v) (replaceNeoIntsExactList tl)

/-- Spec-side exact conversion of object fields. -/
def replaceNeoIntsExactObj : JObj → JObj
  | JObj.nil => JObj.nil
  | JObj.cons k v tl => JObj.cons k (replaceNeoIntsExact v) (replaceNeoIntsExactObj tl)
end

mutual
/-- Whether every store-native integer anywhere in the value lies within
the double-exact range ±2^53. -/
def allNeoIntsSafe : JValue → Bool
  | JValue.neoInt i => decide (-((2 : Int) ^ 53) ≤ i ∧ i ≤ 2 ^ 53)
  | JValue.arr items => allNeoIntsSafeList items
  | JValue.obj fields => allNeoIntsSafeObj fields
  | JValue.str _ => true
  | JValue.num _ => true
  | JValue.boolv _ => true
  | JValue.nullv => true

/-- Safe-range check over array elements. -/
def allNeoIntsSafeList : JList → Bool
  | JList.nil => true
  | JList.cons v tl => allNeoIntsSafe v && allNeoIntsSafeList tl

/-- Safe-range check over object fields. -/
def allNeoIntsSafeObj : JObj → Bool
  | JObj.nil => true
  | JObj.cons _ v tl => allNeoIntsSafe v && allNeoIntsSafeObj tl
end

/-- The native number held by a converted leaf, when it is a number. -/
def numVal : JValue → Option Int
  | JValue.num n => some n
  | _ => none

mutual
/-- Whether a store-native integer occurs anywhere in a value. -/
def hasNeoInt : JValue → Bool
  | JValue.neoInt _ => true
  | JValue.arr items => hasNeoIntList items
  | JValue.obj fields => hasNeoIntObj fields
  | JValue.str _ => false
  | JValue.num _ => false
  | JValue.boolv _ => false
  | JValue.nullv => false

/-- Occurrence of a store-native integer in an array. -/
def hasNeoIntList : JList → Bool
  | JList.nil => false
  | JList.cons v tl => hasNeoInt v || hasNeoIntList tl

/-- Occurrence of a store-native integer in an object. -/
def hasNeoIntObj : JObj → Bool
  | JObj.nil => false
  | JObj.cons _ v tl => hasNeoInt v || hasNeoIntObj tl
end

/-- Generic merge-style accumulation: append an element only when it is not
already present.  Both the node merge and the edge merge reduce to folds of
this operation over their key lists. -/
def addNew {α : Type} [DecidableEq α] (l : List α) (a : α) : List α :=
  if a ∈ l then l else l ++ [a]

/-- Endpoint keys of a pair list, in merge order (`from` before `to`). -/
def pairPaths : List (String × String) → List String
  | [] => []
  | p :: ps => p.1 :: p.2 :: pairPaths ps

/-- Pairwise evolution of a surviving node slot across an edge-upsert batch
with scope `scope`: the path never changes, and the `projectUuid` is either
left exactly as it was or — only when it was absent — filled with the batch
scope. -/
def UuidEvol (scope : String) (n n' : GraphNode) : Prop :=
  n'.path = n.path ∧
    (n'.projectUuid = n.projectUuid ∨
      (n.projectUuid = none ∧ n'.projectUuid = some scope))

/-- Evolution of a whole node list across an edge-upsert batch: the batch
only mutates existing slots pointwise (per `UuidEvol`) and appends newly
created endpoint nodes, each carrying `projectUuid = scope`. -/
def NodesEvol (scope : String) (g g' : Graph) : Prop :=
  g.nodes.length ≤ g'.nodes.length ∧
    (∀ i, i < g.nodes.length →
      UuidEvol scope (g.nodes.getD i default) (g'.nodes.getD i default)) ∧
    (∀ j, g.nodes.length ≤ j → j < g'.nodes.length →
      (g'.nodes.getD j default).projectUuid = some scope)

/-- Example record of the merge-creates-missing-endpoints scenario:
`{path:"a.pl", importFiles:["b.pl"]}`. -/
def recAB : FileRecord :=
  { path := "a.pl", importFiles := some ["b.pl"] }

/-- Pre-existing cross-project node with an assigned scope. -/
def nodeP1 : GraphNode :=
  { path := "b.pl", projectUuid := some "P1" }

/-- Pre-existing node with an absent `projectUuid` (as left behind, e.g., by
the older import script that never set the property). -/
def nodeNoUuid : GraphNode :=
  { path := "b.pl" }

/-- Four-node example graph of the degree-aggregate scenario: edges a→b,
a→c, d→b. -/
def gDeg : Graph :=
  { nodes := [{ path := "a" }, { path := "b" }, { path := "c" }, { path := "d" }]
    edges := [("a", "b"), ("a", "c"), ("d", "b")] }

/-- Two-project example graph: one node of project P1 importing one node of
project P2. -/
def gTwoProj : Graph :=
  { nodes := [{ path := "p1", projectUuid := some "P1" },
              { path := "p2", projectUuid := some "P2" }]
    edges := [("p1", "p2")] }

/-- The projection looked up by the Louvain write inside a
community-detection call is exactly the one just built from the current
graph: the initial drop removed every projection named `importsGraph`, so
the lookup finds the freshly appended one. -/
theorem find_importsGraph_after_build (st : Store) :
    (projectImportsGraph (dropImportsGraph st)).projections.find?
        (fun pr => pr.name == "importsGraph") =
      some { name := "importsGraph", nodePaths := nodePaths st.graph,
             relEdges := st.graph.edges, undirected := true } := by
  have hnone : (st.projections.filter (fun pr => !(pr.name == "importsGraph"))).find?
      (fun pr => pr.name == "importsGraph") = none := by
    rw [List.find?_eq_none]
    intro pr hpr
    have := (List.mem_filter.mp hpr).2
    simp only [Bool.not_eq_true'] at this
    simp [this]
  simp [projectImportsGraph, dropImportsGraph, List.find?_append, hnone, List.find?]

/-- Claim C3: after the degree recount, every node of the store carries
`importCount` equal to its number of outgoing `IMPORTS` edges and
`importedByCount` equal to its number of incoming `IMPORTS` edges (the
recount leaves the edge set untouched, so the degrees are those of the
input graph). -/
theorem updateImportCounts_correct :
    ∀ (g : Graph) (n : GraphNode), n ∈ (updateImportCounts g).nodes →
      n.importCount = some (outDeg g.edges n.path) ∧
      n.importedByCount = some (inDeg g.edges n.path) := by
  intro g n hn
  simp only [updateImportCounts, List.mem_map] at hn
  obtain ⟨m, _, rfl⟩ := hn
  exact ⟨rfl, rfl⟩

/-- Claim C3 witness: on the graph with edges a→b, a→c, d→b the recount
yields a.importCount=2, a.importedByCount=0; b: 0 and 2; c: 0 and 1; d: 1
and 0. -/
theorem updateImportCounts_correct_witness :
    (({ path := "a", importCount := some 2, importedByCount := some 0 } : GraphNode) ∈
        (updateImportCounts gDeg).nodes ∧
      ({ path := "a", importCount := some 2, importedByCount := some 0 } : GraphNode).importCount
        = some 2) ∧
    (({ path := "b", importCount := some 0, importedByCount := some 2 } : GraphNode) ∈
        (updateImportCounts gDeg).nodes ∧
      ({ path := "b", importCount := some 0, importedByCount := some 2 } : GraphNode).importedByCount
        = some 2) ∧
    ({ path := "c", importCount := some 0, importedByCount := some 1 } : GraphNode) ∈
      (updateImportCounts gDeg).nodes ∧
    ({ path := "d", importCount := some 1, importedByCount := some 0 } : GraphNode) ∈
      (updateImportCounts gDeg).nodes := by
  refine ⟨⟨by decide, ?_⟩, ⟨by decide, ?_⟩, by decide, by decide⟩
  · exact (updateImportCounts_correct gDeg
      { path := "a", importCount := some 2, importedByCount := some 0 } (by decide)).1.trans
      (by decide)
  · exact (updateImportCounts_correct gDeg
      { path := "b", importCount := some 0, importedByCount := some 2 } (by decide)).2.trans
      (by decide)

/-- Claim C10: neither the degree recount nor the community-detection block
filters by `projectUuid` — `updateImportCounts` matches every `File` node
and the gds projection contains every `File` node, so one run overwrites
`importCount`/`importedByCount` and `clusterId` on every node in the
shared store, whatever project it belongs to. -/
theorem maintenance_not_scoped :
    ∀ (g : Graph) (n : GraphNode), n ∈ g.nodes →
      ({ n with importCount := some (outDeg g.edges n.path),
                importedByCount := some (inDeg g.edges n.path) } : GraphNode) ∈
          (updateImportCounts g).nodes ∧
      ∀ (comm : String → Nat) (st : Store), n ∈ st.graph.nodes →
        ({ n with clusterId := some (comm n.path) } : GraphNode) ∈
          (detectCommunities comm st).graph.nodes := by
  intro g n hn
  constructor
  · exact List.mem_map.mpr ⟨n, hn, rfl⟩
  · intro comm st hst
    show _ ∈ (louvainWrite comm (projectImportsGraph (dropImportsGraph st))).graph.nodes
    rw [louvainWrite, find_importsGraph_after_build]
    refine List.mem_map.mpr ⟨n, hst, ?_⟩
    have hc : ((nodePaths st.graph).contains n.path) = true := by
      have : n.path ∈ nodePaths st.graph := List.mem_map.mpr ⟨n, hst, rfl⟩
      exact List.elem_eq_true_of_mem this
    exact if_pos hc

/-- Claim C10 witness: in a store holding a P1 node importing a P2 node,
one maintenance pass overwrites the P2 node's degree counts and its
`clusterId`. -/
theorem maintenance_not_scoped_witness :
    ({ path := "p2", projectUuid := some "P2", importCount := some 0,
       importedByCount := some 1 } : GraphNode) ∈ (updateImportCounts gTwoProj).nodes ∧
    ({ path := "p2", projectUuid := some "P2", clusterId := some 7 } : GraphNode) ∈
      (detectCommunities (fun _ => 7) { graph := gTwoProj }).graph.nodes := by
  have h := maintenance_not_scoped gTwoProj
    { path := "p2", projectUuid := some "P2" } (by decide)
  exact ⟨h.1, h.2 (fun _ => 7) { graph := gTwoProj } (by decide)⟩

/-- Claim C5: an edge-upsert run on the single record
`{path:"a.pl", importFiles:["b.pl"]}` against an empty store creates
exactly two `File` nodes — `a.pl` and the implicitly created endpoint
`b.pl` — and exactly one `IMPORTS` edge `a.pl → b.pl`; the endpoint
`b.pl` carries only its `path` and `projectUuid`, every other attribute
absent. -/
theorem upsertEdges_creates_missing_endpoint :
    (upsertEdges ({} : Graph) [recAB] "P").nodes =
      [{ path := "a.pl", projectUuid := some "P" },
       { path := "b.pl", projectUuid := some "P" }] ∧
    (upsertEdges ({} : Graph) [recAB] "P").edges = [("a.pl", "b.pl")] := by
  decide

/-- Claim C2 (failing input): on a non-empty input whose node-upsert write
raises an unrecoverable store error, `importRepo` rethrows from its catch
block, but the `finally` block's `process.exit(0)` supersedes the pending
error, so the error never reaches the top level and the process exits with
status 0 — not the non-zero status the claim requires. -/
theorem importRepo_exit_zero_on_store_error :
    importRepoControl (some [recAB]) (some PipeStep.nodeWriteStep) = Control.exited 0 ∧
    processExitCode (importRepoControl (some [recAB]) (some PipeStep.nodeWriteStep)) = 0 := by
  decide

/-- Claim C4 counterexample: the node `b.pl` exists before the "P2" edge
batch (with an absent `projectUuid`, as the older import script leaves
nodes), is matched — not newly created — by the batch, and nevertheless has
its `projectUuid` set from the batch's scope via the `coalesce` in
`ON MATCH SET`; so `projectUuid` is not set from the batch scope only when
the endpoint node is newly created. -/
theorem uuid_set_on_matched_node :
    ({ nodes := [nodeNoUuid] } : Graph).nodes.any (fun n => n.path == "b.pl") = true ∧
    nodeNoUuid.projectUuid = none ∧
    ((upsertEdges { nodes := [nodeNoUuid] } [recAB] "P2").nodes.map
        (fun n => (n.path, n.projectUuid))) =
      [("b.pl", some "P2"), ("a.pl", some "P2")] := by
  decide

/-- Claim C6 counterexample: the normalization step mutates the input
records in place — after the call, the heap cell holding the single input
record no longer contains its original value (its `description` has been
defaulted and its `id` assigned), so the step is not free of side effects
on its input. -/
theorem normalizeFiles_mutates_input :
    ¬((normalizeFiles (fun _ => "fresh") [{ path := "a.pl" }] [0]).1 =
        [{ path := "a.pl" }]) := by
  decide

/-- Claim C7 counterexample: a community-detection call starting from the
`{no projection}` state ends with the `importsGraph` projection still in
place — the block never drops the projection it built, so the call does not
end in the `{no projection}` state. -/
theorem detectCommunities_leaves_projection :
    (detectCommunities (fun _ => 0) ({} : Store)).projections =
      [{ name := "importsGraph", nodePaths := [], relEdges := [], undirected := true }] ∧
    ¬((detectCommunities (fun _ => 0) ({} : Store)).projections = []) := by
  decide

/-- Claim C9: when the input file list is null/undefined or empty,
`importRepo` returns at the line-39 guard before acquiring any store
session: no session is opened, no constraint is ensured, no node or edge is
upserted, no degree count is recomputed and no community detection runs —
the store state is returned unchanged. -/
theorem importRepo_empty_input_no_store_work :
    ∀ (u : String) (idGen : Nat → String) (comm : String → Nat) (st : Store),
      importRepoStore none u idGen comm st = (st, 0) ∧
      importRepoStore (some []) u idGen comm st = (st, 0) := by
  intro u idGen comm st
  exact ⟨rfl, rfl⟩

mutual
/-- The source conversion agrees with the spec-side replacement on every
value. -/
theorem convert_eq_replace_val : ∀ v : JValue, convertNeo4jValue v = replaceNeoInts v
  | JValue.str _ => by simp [convertNeo4jValue, replaceNeoInts]
  | JValue.num _ => by simp [convertNeo4jValue, replaceNeoInts]
  | JValue.neoInt _ => by simp [convertNeo4jValue, replaceNeoInts]
  | JValue.boolv _ => by simp [convertNeo4jValue, replaceNeoInts]
  | JValue.nullv => by simp [convertNeo4jValue, replaceNeoInts]
  | JValue.arr items => by
    simp only [convertNeo4jValue, replaceNeoInts]
    exact congrArg JValue.arr (convert_eq_replace_list items)
  | JValue.obj fields => by
    simp only [convertNeo4jValue, replaceNeoInts]
    exact congrArg JValue.obj (convert_eq_replace_obj fields)

/-- Array case of the agreement. -/
theorem convert_eq_replace_list : ∀ l : JList, convertJList l = replaceNeoIntsList l
  | JList.nil => by simp [convertJList, replaceNeoIntsList]
  | JList.cons v tl => by
    simp only [convertJList, replaceNeoIntsList]
    rw [convert_eq_replace_val v, convert_eq_replace_list tl]

/-- Object case of the agreement. -/
theorem convert_eq_replace_obj : ∀ o : JObj, convertJObj o = replaceNeoIntsObj o
  | JObj.nil => by simp [convertJObj, replaceNeoIntsObj]
  | JObj.cons k v tl => by
    simp only [convertJObj, replaceNeoIntsObj]
    rw [convert_eq_replace_val v, convert_eq_replace_obj tl]
end

mutual
/-- No store-native integer survives the conversion of a value. -/
theorem no_neoInt_after_convert_val : ∀ v : JValue, hasNeoInt (convertNeo4jValue v) = false
  | JValue.str _ => by simp [convertNeo4jValue, hasNeoInt]
  | JValue.num _ => by simp [convertNeo4jValue, hasNeoInt]
  | JValue.neoInt _ => by simp [convertNeo4jValue, hasNeoInt]
  | JValue.boolv _ => by simp [convertNeo4jValue, hasNeoInt]
  | JValue.nullv => by simp [convertNeo4jValue, hasNeoInt]
  | JValue.arr items => by
    simp only [convertNeo4jValue, hasNeoInt]
    exact no_neoInt_after_convert_list items
  | JValue.obj fields => by
    simp only [convertNeo4jValue, hasNeoInt]
    exact no_neoInt_after_convert_obj fields

/-- No store-native integer survives the conversion of an array. -/
theorem no_neoInt_after_convert_list : ∀ l : JList, hasNeoIntList (convertJList l) = false
  | JList.nil => by simp [convertJList, hasNeoIntList]
  | JList.cons v tl => by
    simp only [convertJList, hasNeoIntList]
    rw [no_neoInt_after_convert_val v, no_neoInt_after_convert_list tl]
    rfl

/-- No store-native integer survives the conversion of an object. -/
theorem no_neoInt_after_convert_obj : ∀ o : JObj, hasNeoIntObj (convertJObj o) = false
  | JObj.nil => by simp [convertJObj, hasNeoIntObj]
  | JObj.cons k v tl => by
    simp only [convertJObj, hasNeoIntObj]
    rw [no_neoInt_after_convert_val v, no_neoInt_after_convert_obj tl]
    rfl
end

/-- Membership in a merge-style accumulation. -/
theorem mem_addNew {α : Type} [DecidableEq α] (l : List α) (a b : α) :
    b ∈ addNew l a ↔ b ∈ l ∨ b = a := by
  unfold addNew
  split
  · rename_i h
    constructor
    · exact Or.inl
    · rintro (hb | rfl)
      · exact hb
      · exact h
  · simp [List.mem_append]

/-- A merge-style fold never loses elements of its accumulator. -/
theorem mem_foldl_addNew_of_mem {α : Type} [DecidableEq α] {a : α} :
    ∀ (xs l : List α), a ∈ l → a ∈ xs.foldl addNew l
  | [], _, h => h
  | x :: xs, l, h =>
    mem_foldl_addNew_of_mem xs (addNew l x) ((mem_addNew l x a).mpr (Or.inl h))

/-- A merge-style fold contains every element it folds over. -/
theorem mem_foldl_addNew_of_mem_arg {α : Type} [DecidableEq α] {a : α} :
    ∀ (xs l : List α), a ∈ xs → a ∈ xs.foldl addNew l := by
  intro xs
  induction xs with
  | nil => intro l h; cases h
  | cons x xs ih =>
    intro l h
    rcases List.mem_cons.mp h with rfl | hxs
    · exact mem_foldl_addNew_of_mem xs _ ((mem_addNew l a a).mpr (Or.inr rfl))
    · exact ih _ hxs

/-- A merge-style fold over elements already present is the identity: this
is the merge-not-insert heart of the idempotence property. -/
theorem foldl_addNew_of_subset {α : Type} [DecidableEq α] :
    ∀ (xs l : List α), (∀ x ∈ xs, x ∈ l) → xs.foldl addNew l = l := by
  intro xs
  induction xs with
  | nil => intro l _; rfl
  | cons x xs ih =>
    intro l h
    have hx : addNew l x = l := by
      unfold addNew
      rw [if_pos (h x (List.mem_cons_self x xs))]
    rw [List.foldl_cons, hx]
    exact ih l (fun y hy => h y (List.mem_cons_of_mem x hy))

/-- The `MERGE` existence check of the Cypher statements coincides with
membership in the path list. -/
theorem any_path_iff (g : Graph) (p : String) :
    (g.nodes.any (fun n => n.path == p) = true) ↔ p ∈ nodePaths g := by
  constructor
  · intro h
    obtain ⟨n, hn, hb⟩ := List.any_eq_true.mp h
    exact List.mem_map.mpr ⟨n, hn, beq_iff_eq.mp hb⟩
  · intro h
    obtain ⟨n, hn, hp⟩ := List.mem_map.mp h
    exact List.any_eq_true.mpr ⟨n, hn, beq_iff_eq.mpr hp⟩

/-- A node merge adds the record's path exactly when absent and never
changes any existing path. -/
theorem nodePaths_upsertOneNode (u : String) (g : Graph) (f : FileRecord) :
    nodePaths (upsertOneNode u g f) = addNew (nodePaths g) f.path := by
  unfold upsertOneNode addNew
  by_cases h : f.path ∈ nodePaths g
  · rw [if_pos ((any_path_iff g f.path).mpr h), if_pos h]
    simp only [nodePaths, List.map_map]
    apply List.map_congr_left
    intro n _
    simp only [Function.comp]
    split
    · rfl
    · rfl
  · rw [if_neg (fun hc => h ((any_path_iff g f.path).mp hc)), if_neg h]
    simp [nodePaths, setNodeAttrs]

/-- An endpoint merge adds the endpoint path exactly when absent and never
changes any existing path. -/
theorem nodePaths_mergeEndpoint (u : String) (p : String) (g : Graph) :
    nodePaths (mergeEndpoint u p g) = addNew (nodePaths g) p := by
  unfold mergeEndpoint addNew
  by_cases h : p ∈ nodePaths g
  · rw [if_pos ((any_path_iff g p).mpr h), if_pos h]
    simp only [nodePaths, List.map_map]
    apply List.map_congr_left
    intro n _
    simp only [Function.comp]
    split
    · rfl
    · rfl
  · rw [if_neg (fun hc => h ((any_path_iff g p).mp hc)), if_neg h]
    simp [nodePaths]

/-- A node merge never touches the edge list. -/
theorem edges_upsertOneNode (u : String) (g : Graph) (f : FileRecord) :
    (upsertOneNode u g f).edges = g.edges := by
  unfold upsertOneNode
  split <;> rfl

/-- The node-upsert step never touches the edge list. -/
theorem edges_upsertNodes (files : List FileRecord) :
    ∀ (g : Graph) (u : String), (upsertNodes g files u).edges = g.edges := by
  induction files with
  | nil => intro g u; rfl
  | cons f fs ih =>
    intro g u
    show (upsertNodes (upsertOneNode u g f) fs u).edges = g.edges
    rw [ih, edges_upsertOneNode]

/-- An endpoint merge never touches the edge list. -/
theorem edges_mergeEndpoint (u : String) (p : String) (g : Graph) :
    (mergeEndpoint u p g).edges = g.edges := by
  unfold mergeEndpoint
  split <;> rfl

/-- An edge merge never touches the node list. -/
theorem nodePaths_mergeEdge (a b : String) (g : Graph) :
    nodePaths (mergeEdge a b g) = nodePaths g := by
  unfold mergeEdge
  split <;> rfl

/-- An edge merge adds the ordered pair exactly when absent. -/
theorem edges_mergeEdge (a b : String) (g : Graph) :
    (mergeEdge a b g).edges = addNew g.edges (a, b) := by
  unfold mergeEdge addNew
  split <;> rfl

/-- Path-list effect of one edge-pair merge. -/
theorem nodePaths_upsertEdgePair (u : String) (g : Graph) (p : String × String) :
    nodePaths (upsertEdgePair u g p) = addNew (addNew (nodePaths g) p.1) p.2 := by
  unfold upsertEdgePair
  rw [nodePaths_mergeEdge, nodePaths_mergeEndpoint, nodePaths_mergeEndpoint]

/-- Edge-list effect of one edge-pair merge. -/
theorem edges_upsertEdgePair (u : String) (g : Graph) (p : String × String) :
    (upsertEdgePair u g p).edges = addNew g.edges p := by
  obtain ⟨a, b⟩ := p
  unfold upsertEdgePair
  rw [edges_mergeEdge, edges_mergeEndpoint, edges_mergeEndpoint]

/-- Path-list effect of the whole edge-upsert step: a merge-style fold over
the endpoint paths of the flattened pairs. -/
theorem nodePaths_upsertEdges (files : List FileRecord) (g : Graph) (u : String) :
    nodePaths (upsertEdges g files u) =
      (pairPaths (relPairs files)).foldl addNew (nodePaths g) := by
  unfold upsertEdges
  generalize relPairs files = ps
  induction ps generalizing g with
  | nil => rfl
  | cons p ps ih =>
    show nodePaths (List.foldl (upsertEdgePair u) (upsertEdgePair u g p) ps) = _
    rw [ih, nodePaths_upsertEdgePair]
    rfl

/-- Edge-list effect of the whole edge-upsert step: a merge-style fold over
the flattened pairs. -/
theorem edges_upsertEdges (files : List FileRecord) (g : Graph) (u : String) :
    (upsertEdges g files u).edges = (relPairs files).foldl addNew g.edges := by
  unfold upsertEdges
  generalize relPairs files = ps
  induction ps generalizing g with
  | nil => rfl
  | cons p ps ih =>
    show (List.foldl (upsertEdgePair u) (upsertEdgePair u g p) ps).edges = _
    rw [ih, edges_upsertEdgePair]
    rfl

/-- Path-list effect of the whole node-upsert step: a merge-style fold over
the record paths. -/
theorem nodePaths_upsertNodes (files : List FileRecord) :
    ∀ (g : Graph) (u : String),
      nodePaths (upsertNodes g files u) =
        (files.map (fun f => f.path)).foldl addNew (nodePaths g) := by
  induction files with
  | nil => intro g u; rfl
  | cons f fs ih =>
    intro g u
    show nodePaths (upsertNodes (upsertOneNode u g f) fs u) = _
    rw [ih, nodePaths_upsertOneNode]
    rfl

/-- Claim C1: running the node-upsert step followed by the edge-upsert step
twice in succession on identical input leaves exactly the node set (keyed
by path) and the `IMPORTS` edge set (keyed by ordered endpoint pair) of a
single run: the second run's merges find every path and every pair already
present and create nothing. -/
theorem upsert_run_idempotent :
    ∀ (g : Graph) (files : List FileRecord) (u : String),
      nodePaths (upsertEdges (upsertNodes (upsertEdges (upsertNodes g files u) files u)
          files u) files u) =
        nodePaths (upsertEdges (upsertNodes g files u) files u) ∧
      (upsertEdges (upsertNodes (upsertEdges (upsertNodes g files u) files u)
          files u) files u).edges =
        (upsertEdges (upsertNodes g files u) files u).edges := by
  intro g files u
  set g1 := upsertEdges (upsertNodes g files u) files u with hg1
  constructor
  · rw [nodePaths_upsertEdges, nodePaths_upsertNodes]
    have hF : ∀ x ∈ files.map (fun f => f.path), x ∈ nodePaths g1 := by
      intro x hx
      rw [hg1, nodePaths_upsertEdges, nodePaths_upsertNodes]
      exact mem_foldl_addNew_of_mem _ _ (mem_foldl_addNew_of_mem_arg _ _ hx)
    rw [foldl_addNew_of_subset _ _ hF]
    have hE : ∀ x ∈ pairPaths (relPairs files), x ∈ nodePaths g1 := by
      intro x hx
      rw [hg1, nodePaths_upsertEdges]
      exact mem_foldl_addNew_of_mem_arg _ _ hx
    exact foldl_addNew_of_subset _ _ hE
  · rw [edges_upsertEdges, edges_upsertNodes]
    have hR : ∀ p ∈ relPairs files, p ∈ g1.edges := by
      intro p hp
      rw [hg1, edges_upsertEdges]
      exact mem_foldl_addNew_of_mem_arg _ _ hp
    exact foldl_addNew_of_subset _ _ hR

/-- Within the double-exact range ±2^53 the driver conversion maps a store
integer to the equal native number. -/
theorem toNumberJS_exact_of_safe (i : Int)
    (h1 : -((2 : Int) ^ 53) ≤ i) (h2 : i ≤ 2 ^ 53) : toNumberJS i = i := by
  have e : ((2 : Int) ^ 53) = 9007199254740992 := by norm_num
  rw [e] at h1 h2
  have eN : ((2 : Nat) ^ 53) = 9007199254740992 := by norm_num
  have hn : i.natAbs ≤ 2 ^ 53 := by
    rw [eN]
    omega
  have hr : roundNatToDouble i.natAbs = i.natAbs := by
    unfold roundNatToDouble
    rw [if_pos hn]
  unfold toNumberJS
  split
  · rw [hr]
    omega
  · rw [hr]
    omega

mutual
/-- On values all of whose store integers are within ±2^53, the conversion
coincides with the exact spec-side replacement. -/
theorem convert_safe_val : ∀ v : JValue, allNeoIntsSafe v = true →
    convertNeo4jValue v = replaceNeoIntsExact v
  | JValue.str _, _ => by simp [convertNeo4jValue, replaceNeoIntsExact]
  | JValue.num _, _ => by simp [convertNeo4jValue, replaceNeoIntsExact]
  | JValue.boolv _, _ => by simp [convertNeo4jValue, replaceNeoIntsExact]
  | JValue.nullv, _ => by simp [convertNeo4jValue, replaceNeoIntsExact]
  | JValue.neoInt i, h => by
    simp only [allNeoIntsSafe, decide_eq_true_eq] at h
    simp only [convertNeo4jValue, replaceNeoIntsExact]
    rw [toNumberJS_exact_of_safe i h.1 h.2]
  | JValue.arr items, h => by
    simp only [allNeoIntsSafe] at h
    simp only [convertNeo4jValue, replaceNeoIntsExact]
    exact congrArg JValue.arr (convert_safe_list items h)
  | JValue.obj fields, h => by
    simp only [allNeoIntsSafe] at h
    simp only [convertNeo4jValue, replaceNeoIntsExact]
    exact congrArg JValue.obj (convert_safe_obj fields h)

/-- Safe-range agreement over array elements. -/
theorem convert_safe_list : ∀ l : JList, allNeoIntsSafeList l = true →
    convertJList l = replaceNeoIntsExactList l
  | JList.nil, _ => by simp [convertJList, replaceNeoIntsExactList]
  | JList.cons v tl, h => by
    simp only [allNeoIntsSafeList, Bool.and_eq_true] at h
    simp only [convertJList, replaceNeoIntsExactList]
    rw [convert_safe_val v h.1, convert_safe_list tl h.2]

/-- Safe-range agreement over object fields. -/
theorem convert_safe_obj : ∀ o : JObj, allNeoIntsSafeObj o = true →
    convertJObj o = replaceNeoIntsExactObj o
  | JObj.nil, _ => by simp [convertJObj, replaceNeoIntsExactObj]
  | JObj.cons k v tl, h => by
    simp only [allNeoIntsSafeObj, Bool.and_eq_true] at h
    simp only [convertJObj, replaceNeoIntsExactObj]
    rw [convert_safe_val v h.1, convert_safe_obj tl h.2]
end

/-- Claim C8 counterexample: the store integer 2^53 + 1 passes through the
conversion as the native number 2^53 — `toNumber()` rounds it to the
nearest double (tie to even) — which is not equal to the integer
originally written, refuting the claimed round-trip equality. -/
theorem convert_loses_large_integer :
    numVal (convertNeo4jValue (JValue.neoInt ((2 : Int) ^ 53 + 1))) =
      some ((2 : Int) ^ 53) ∧
    ¬(numVal (convertNeo4jValue (JValue.neoInt ((2 : Int) ^ 53 + 1))) =
      some ((2 : Int) ^ 53 + 1)) := by
  constructor
  · decide
  · decide

/-- Claim C8 amended: `convertNeo4jValue` recursively replaces every
store-native integer anywhere in a result value — also inside arrays and
nested objects — by the host-native number `toNumber()` produces for it
(its round-to-nearest-even double value), preserving the shape of strings,
arrays and objects, and leaves no store-native integer in the output; the
produced number is equal to the integer originally written whenever every
store integer of the value lies within the double-exact range ±2^53, while
larger integers can lose precision. -/
theorem convertNeo4jValue_spec :
    ∀ v : JValue, convertNeo4jValue v = replaceNeoInts v ∧
      hasNeoInt (convertNeo4jValue v) = false ∧
      (allNeoIntsSafe v = true → convertNeo4jValue v = replaceNeoIntsExact v) :=
  fun v => ⟨convert_eq_replace_val v, no_neoInt_after_convert_val v,
    fun h => convert_safe_val v h⟩

/-- Claim C8 amended witness: an array holding the safe store integer 7 and
a string converts to the exact replacement — the store integer comes back
as the equal native number 7. -/
theorem convertNeo4jValue_spec_witness :
    allNeoIntsSafe (JValue.arr (JList.cons (JValue.neoInt 7)
      (JList.cons (JValue.str "x") JList.nil))) = true ∧
    convertNeo4jValue (JValue.arr (JList.cons (JValue.neoInt 7)
        (JList.cons (JValue.str "x") JList.nil))) =
      replaceNeoIntsExact (JValue.arr (JList.cons (JValue.neoInt 7)
        (JList.cons (JValue.str "x") JList.nil))) := by
  refine ⟨by decide, ?_⟩
  exact (convertNeo4jValue_spec (JValue.arr (JList.cons (JValue.neoInt 7)
    (JList.cons (JValue.str "x") JList.nil)))).2.2 (by decide)

/-- Reading a just-written heap cell. -/
theorem getD_set_self_of_lt {α : Type} [Inhabited α] (l : List α) (r : Nat) (v : α)
    (h : r < l.length) : (l.set r v).getD r default = v := by
  simp [List.getD_eq_getElem?_getD, List.getElem?_set_self h]

/-- Reading a heap cell other than the written one. -/
theorem getD_set_ne_of_ne {α : Type} [Inhabited α] (l : List α) (r j : Nat) (v : α)
    (h : r ≠ j) : (l.set r v).getD j default = l.getD j default := by
  simp [List.getD_eq_getElem?_getD, List.getElem?_set_ne h]

/-- Reading through a pointwise map at an in-range index. -/
theorem getD_map_of_lt {α β : Type} [Inhabited α] [Inhabited β] (f : α → β) (l : List α)
    (i : Nat) (h : i < l.length) : (l.map f).getD i default = f (l.getD i default) := by
  have h' : i < (l.map f).length := by simpa using h
  rw [List.getD_eq_getElem _ _ h', List.getD_eq_getElem _ _ h, List.getElem_map]

/-- Reading an appended singleton at the old length. -/
theorem getD_append_at_length {α : Type} [Inhabited α] (l : List α) (x : α) :
    (l ++ [x]).getD l.length default = x := by
  rw [List.getD_append_right l [x] default l.length (le_refl _)]
  simp

/-- Behaviour of the mutation pass of the normalizer: the heap keeps its
length, the k-th visited (distinct, in-range) reference ends up holding its
normalized original value with the k-th generated id, and every other heap
cell is untouched. -/
theorem normalizeGo_spec (idGen : Nat → String) :
    ∀ (refs : List Nat) (k : Nat) (heap : RecHeap), refs.Nodup →
      (∀ r ∈ refs, r < heap.length) →
      (normalizeGo idGen k heap refs).length = heap.length ∧
      (∀ i, i < refs.length →
        (normalizeGo idGen k heap refs).getD (refs.getD i 0) default =
          normalizeRecord (idGen (k + i)) (heap.getD (refs.getD i 0) default)) ∧
      (∀ j, j ∉ refs →
        (normalizeGo idGen k heap refs).getD j default = heap.getD j default) := by
  intro refs
  induction refs with
  | nil =>
    intro k heap _ _
    exact ⟨rfl, fun i hi => absurd hi (by simp), fun _ _ => rfl⟩
  | cons r rest ih =>
    intro k heap hnd hb
    have hr : r < heap.length := hb r (List.mem_cons_self r rest)
    have hnr : r ∉ rest := (List.nodup_cons.mp hnd).1
    have hndr : rest.Nodup := (List.nodup_cons.mp hnd).2
    set h1 : RecHeap := heap.set r (normalizeRecord (idGen k) (heap.getD r default)) with hh1
    have hlen1 : h1.length = heap.length := by
      rw [hh1]
      exact List.length_set _ _ _
    have hb1 : ∀ x ∈ rest, x < h1.length := by
      intro x hx
      rw [hlen1]
      exact hb x (List.mem_cons_of_mem r hx)
    obtain ⟨ihlen, ihget, ihframe⟩ := ih (k + 1) h1 hndr hb1
    refine ⟨?_, ?_, ?_⟩
    · show (normalizeGo idGen (k + 1) h1 rest).length = heap.length
      rw [ihlen, hlen1]
    · intro i hi
      match i with
      | 0 =>
        show (normalizeGo idGen (k + 1) h1 rest).getD r default =
          normalizeRecord (idGen (k + 0)) (heap.getD r default)
        rw [ihframe r hnr, hh1, getD_set_self_of_lt _ _ _ hr, Nat.add_zero]
      | Nat.succ i' =>
        have hi' : i' < rest.length := by
          simp only [List.length_cons] at hi
          omega
        show (normalizeGo idGen (k + 1) h1 rest).getD (rest.getD i' 0) default =
          normalizeRecord (idGen (k + (i' + 1))) (heap.getD (rest.getD i' 0) default)
        have hmem : rest.getD i' 0 ∈ rest := by
          rw [List.getD_eq_getElem _ _ hi']
          exact List.getElem_mem hi'
        have hne : r ≠ rest.getD i' 0 := fun he => hnr (he ▸ hmem)
        rw [ihget i' hi', hh1, getD_set_ne_of_ne _ _ _ _ hne,
          show k + 1 + i' = k + (i' + 1) from by omega]
    · intro j hj
      have hjr : r ≠ j := fun he => hj (he ▸ List.mem_cons_self r rest)
      have hjrest : j ∉ rest := fun hm => hj (List.mem_cons_of_mem r hm)
      show (normalizeGo idGen (k + 1) h1 rest).getD j default = heap.getD j default
      rw [ihframe j hjrest, hh1, getD_set_ne_of_ne _ _ _ _ hjr]

/-- Claim C6 amended: for every sequence of (distinct, live) input record
references, the normalization returns the very same references in the same
order, and after the call each referenced record holds its original value
with the description made non-null (default `""`) and the freshly generated
per-position id assigned, other records being untouched — i.e. the step
produces the claimed output but does so by mutating the input records in
place (the returned records alias the inputs), so it is not side-effect
free. -/
theorem normalizeFiles_amended :
    ∀ (idGen : Nat → String) (heap : RecHeap) (refs : List Nat),
      refs.Nodup → (∀ r ∈ refs, r < heap.length) →
      (normalizeFiles idGen heap refs).2 = refs ∧
      (normalizeFiles idGen heap refs).1.length = heap.length ∧
      (∀ i, i < refs.length →
        (normalizeFiles idGen heap refs).1.getD (refs.getD i 0) default =
          normalizeRecord (idGen i) (heap.getD (refs.getD i 0) default)) ∧
      (∀ j, j ∉ refs →
        (normalizeFiles idGen heap refs).1.getD j default = heap.getD j default) := by
  intro idGen heap refs hnd hb
  obtain ⟨hlen, hget, hframe⟩ := normalizeGo_spec idGen refs 0 heap hnd hb
  exact ⟨rfl, hlen, fun i hi => by simpa using hget i hi, hframe⟩

/-- Claim C6 amended witness: one record without a description, normalized
with a constant id generator — the same reference comes back and its cell
now holds the record with the defaulted description and the generated id. -/
theorem normalizeFiles_amended_witness :
    ([0] : List Nat).Nodup ∧
    (normalizeFiles (fun _ => "fresh") [{ path := "a.pl" }] [0]).2 = [0] ∧
    (normalizeFiles (fun _ => "fresh") [{ path := "a.pl" }] [0]).1.getD 0 default =
      { path := "a.pl", description := some "", id := some "fresh" } := by
  have h := normalizeFiles_amended (fun _ => "fresh") [{ path := "a.pl" }] [0]
    (by decide) (by decide)
  refine ⟨by decide, h.1, ?_⟩
  exact (h.2.2.1 0 (by decide)).trans (by decide)

/-- Reflexivity of the batch evolution relation. -/
theorem nodesEvol_refl (scope : String) (g : Graph) : NodesEvol scope g g :=
  ⟨le_refl _, fun _ _ => ⟨rfl, Or.inl rfl⟩, fun _ hj1 hj2 => absurd hj2 (by omega)⟩

/-- Transitivity of the batch evolution relation. -/
theorem nodesEvol_trans (scope : String) (g g' g'' : Graph) :
    NodesEvol scope g g' → NodesEvol scope g' g'' → NodesEvol scope g g'' := by
  rintro ⟨hl1, hp1, hnew1⟩ ⟨hl2, hp2, hnew2⟩
  refine ⟨le_trans hl1 hl2, ?_, ?_⟩
  · intro i hi
    obtain ⟨hpath1, huuid1⟩ := hp1 i hi
    obtain ⟨hpath2, huuid2⟩ := hp2 i (lt_of_lt_of_le hi hl1)
    refine ⟨hpath2.trans hpath1, ?_⟩
    rcases huuid1 with h1 | ⟨h1n, h1s⟩
    · rcases huuid2 with h2 | ⟨h2n, h2s⟩
      · exact Or.inl (h2.trans h1)
      · exact Or.inr ⟨h1 ▸ h2n, h2s⟩
    · rcases huuid2 with h2 | ⟨h2n, h2s⟩
      · exact Or.inr ⟨h1n, h2.trans h1s⟩
      · rw [h1s] at h2n
        cases h2n
  · intro j hj1 hj2
    by_cases hj : j < g'.nodes.length
    · obtain ⟨_, huuid2⟩ := hp2 j hj
      have hs := hnew1 j hj1 hj
      rcases huuid2 with h2 | ⟨_, h2s⟩
      · exact h2.trans hs
      · exact h2s
    · exact hnew2 j (le_of_not_lt hj) hj2

/-- The pointwise effect of an endpoint merge on one node respects the
evolution relation: a touched node keeps its path and either keeps its
`projectUuid` or — when it was absent — gets the batch scope (the
`coalesce` of `ON MATCH SET`). -/
theorem uuidEvol_touch (scope p : String) (n : GraphNode) :
    UuidEvol scope n (if n.path == p then
      { n with projectUuid := some (n.projectUuid.getD scope) } else n) := by
  split
  · refine ⟨rfl, ?_⟩
    cases hc : n.projectUuid with
    | none => exact Or.inr ⟨rfl, rfl⟩
    | some u => exact Or.inl rfl
  · exact ⟨rfl, Or.inl rfl⟩

/-- An endpoint merge respects the evolution relation: existing slots are
touched pointwise, and the only possible new slot is the newly created
endpoint node, which carries the batch scope. -/
theorem nodesEvol_mergeEndpoint (scope p : String) (g : Graph) :
    NodesEvol scope g (mergeEndpoint scope p g) := by
  unfold mergeEndpoint
  split
  · refine ⟨by simp, ?_, ?_⟩
    · intro i hi
      have hg : ({ g with nodes := g.nodes.map (fun n =>
          if n.path == p then { n with projectUuid := some (n.projectUuid.getD scope) }
          else n) } : Graph).nodes.getD i default =
          (fun n => if n.path == p then
            { n with projectUuid := some (n.projectUuid.getD scope) } else n)
            (g.nodes.getD i default) :=
        getD_map_of_lt _ g.nodes i hi
      rw [hg]
      exact uuidEvol_touch scope p (g.nodes.getD i default)
    · intro j hj1 hj2
      simp only [List.length_map] at hj2
      exact absurd hj2 (by omega)
  · refine ⟨by simp, ?_, ?_⟩
    · intro i hi
      have hg : (g.nodes ++ [({ path := p, projectUuid := some scope } : GraphNode)]).getD
          i default = g.nodes.getD i default :=
        List.getD_append _ _ _ _ hi
      show UuidEvol scope (g.nodes.getD i default)
        ((g.nodes ++ [({ path := p, projectUuid := some scope } : GraphNode)]).getD i default)
      rw [hg]
      exact ⟨rfl, Or.inl rfl⟩
    · intro j hj1 hj2
      simp only [List.length_append, List.length_cons, List.length_nil] at hj2
      have hj : j = g.nodes.length := by omega
      subst hj
      show ((g.nodes ++ [({ path := p, projectUuid := some scope } : GraphNode)]).getD
        g.nodes.length default).projectUuid = some scope
      rw [getD_append_at_length]

/-- An edge merge leaves the node list untouched, so it respects the
evolution relation. -/
theorem nodesEvol_mergeEdge (scope a b : String) (g : Graph) :
    NodesEvol scope g (mergeEdge a b g) := by
  unfold mergeEdge
  split
  · exact nodesEvol_refl scope g
  · exact ⟨le_refl _, fun _ _ => ⟨rfl, Or.inl rfl⟩,
      fun _ hj1 hj2 => absurd hj2 (not_lt.mpr hj1)⟩

/-- One pair merge respects the evolution relation. -/
theorem nodesEvol_upsertEdgePair (scope : String) (g : Graph) (p : String × String) :
    NodesEvol scope g (upsertEdgePair scope g p) :=
  nodesEvol_trans scope _ _ _
    (nodesEvol_trans scope _ _ _
      (nodesEvol_mergeEndpoint scope p.1 g)
      (nodesEvol_mergeEndpoint scope p.2 _))
    (nodesEvol_mergeEdge scope p.1 p.2 _)

/-- The whole edge-upsert batch respects the evolution relation. -/
theorem nodesEvol_upsertEdges (scope : String) (files : List FileRecord) (g : Graph) :
    NodesEvol scope g (upsertEdges g files scope) := by
  unfold upsertEdges
  generalize relPairs files = ps
  induction ps generalizing g with
  | nil => exact nodesEvol_refl scope g
  | cons p ps ih =>
    rw [List.foldl_cons]
    exact nodesEvol_trans scope _ _ _ (nodesEvol_upsertEdgePair scope g p) (ih _)

/-- Claim C4 amended: an edge-upsert batch run with scope `P2` never changes
the path of an existing node and never overwrites a non-null `projectUuid`
— in particular a node with `projectUuid="P1"` touched only as an edge
endpoint keeps `"P1"` — while nodes it creates carry `projectUuid=P2`; but
`projectUuid` is not set from the batch scope only on creation: a matched
existing node whose `projectUuid` is absent also receives the batch scope,
via the `coalesce` of the `ON MATCH SET` clause. -/
theorem upsertEdges_uuid_evolution :
    ∀ (g : Graph) (files : List FileRecord) (scope : String),
      NodesEvol scope g (upsertEdges g files scope) :=
  fun g files scope => nodesEvol_upsertEdges scope files g

/-- Claim C4 amended witness: the node `b.pl` of project P1, touched only as
an edge endpoint by a P2 batch, still carries `projectUuid="P1"` after the
batch. -/
theorem upsertEdges_uuid_evolution_witness :
    0 < ({ nodes := [nodeP1] } : Graph).nodes.length ∧
    ((upsertEdges { nodes := [nodeP1] } [recAB] "P2").nodes.getD 0 default).projectUuid =
      some "P1" := by
  have h := upsertEdges_uuid_evolution { nodes := [nodeP1] } [recAB] "P2"
  refine ⟨by decide, ?_⟩
  obtain ⟨_, huuid⟩ := h.2.1 0 (by decide)
  rcases huuid with h1 | ⟨h1n, _⟩
  · rw [h1]; decide
  · exact absurd h1n (by decide)

/-- The Louvain write never changes the projection list. -/
theorem projections_louvainWrite (comm : String → Nat) (st : Store) :
    (louvainWrite comm st).projections = st.projections := by
  unfold louvainWrite
  split <;> rfl

/-- Claim C7 amended: every community-detection call first drops any
projection named `importsGraph` (succeeding also when none exists — the
drop is total), then builds a fresh undirected projection of all `File`
nodes and `IMPORTS` relationships, then runs Louvain writing `clusterId`
onto every node in the persistent store; but the call does not end in the
`{no projection}` state: the projection it built is left in place, to be
removed only by the next call's initial drop. -/
theorem detectCommunities_cycle :
    ∀ (comm : String → Nat) (st : Store),
      (detectCommunities comm st).projections =
        st.projections.filter (fun pr => !(pr.name == "importsGraph")) ++
          [{ name := "importsGraph", nodePaths := nodePaths st.graph,
             relEdges := st.graph.edges, undirected := true }] ∧
      (detectCommunities comm st).graph.nodes =
        st.graph.nodes.map (fun n => { n with clusterId := some (comm n.path) }) ∧
      (detectCommunities comm st).graph.edges = st.graph.edges ∧
      (detectCommunities comm st).constraintsEnsured = st.constraintsEnsured := by
  intro comm st
  refine ⟨?_, ?_, ?_, ?_⟩
  · rw [detectCommunities, projections_louvainWrite]
    rfl
  · rw [detectCommunities, louvainWrite, find_importsGraph_after_build]
    apply List.map_congr_left
    intro n hn
    have hc : ((nodePaths st.graph).contains n.path) = true :=
      List.elem_eq_true_of_mem (List.mem_map.mpr ⟨n, hn, rfl⟩)
    exact if_pos hc
  · rw [detectCommunities, louvainWrite, find_importsGraph_after_build]
    rfl
  · rw [detectCommunities, louvainWrite, find_importsGraph_after_build]
    rfl

end Breeze
